import Mathlib

/-! Verification of the in-memory cache engine: a shallow embedding of the
trait-based cache core (TTL and jitter computation, read classification,
construction-time defaulting, janitor scheduling) and of its sync.Map
backend (point operations, bulk expiry, walk, dump, restore, eviction),
with theorems checking the specified properties against the code.

Modelling conventions.  Go time.Time values and int64 UnixNano timestamps
are both embedded as integers counting nanoseconds, with the zero time at
0, so that t.Before(u) is t < u and the sentinel comparison E != 0 keeps
its meaning; time.Duration is likewise an integer count of nanoseconds.
Float64 configuration values and the rand.Float64 draw are embedded as
exact rationals, and the Go conversions time.Duration(x) and int(x) from
float64 are embedded as truncation toward zero; for every property proved
below the truncated quantity is separated from the nearest integer
boundary by a wide margin, so exact rational arithmetic and IEEE-754
evaluation agree on every comparison made.  The sync.Map store is an
association list from map key to entry, its list order standing for the
unspecified sync.Map.Range order, and theorems quantify over that order.
Logging is dropped; each metric publication is instead returned as an
ordinary value.  Per-call context data (the skip-read flag and the TTL
override) and the random jitter draw are passed as explicit arguments,
and time.Now() becomes an explicit instant argument. -/

/-- An instant in nanoseconds: embeds both time.Time (via UnixNano, the
zero time at 0) and the int64 timestamps produced by ts(). -/
abbrev Instant := Int

/-- Truncation toward zero on rationals, embedding the Go conversions
time.Duration(x : float64) and int(x : float64). -/
def truncF (q : ℚ) : Int :=
  if 0 ≤ q then ⌊q⌋ else ⌈q⌉

/-- Nanoseconds in one time.Minute. -/
def nsPerMinute : Int := 60000000000

/-- Nanoseconds in one time.Hour. -/
def nsPerHour : Int := 3600000000000

/-- DefaultTTL: the zero duration, meaning that config.TimeToLive applies. -/
def DefaultTTL : Int := 0

/-- UnlimitedTTL: the -1ns sentinel duration documented as unlimited TTL. -/
def UnlimitedTTL : Int := -1

/-- Config holds the cache configuration fields consumed by the embedded
code: durations as nanosecond counts, float64 fields as rationals, the
uint64 heap limit and the count limit as naturals.  The Logger and Stats
sink fields are dropped (logging is ignored; metric publications are
returned as values by the functions that emit them). -/
structure Config where
  Name : String
  TimeToLive : Int
  ExpirationJitter : ℚ
  DeleteExpiredAfter : Int
  DeleteExpiredJobInterval : Int
  ItemsCountReportInterval : Int
  HeapInUseSoftLimit : Nat
  CountSoftLimit : Nat
  EvictFraction : ℚ
deriving DecidableEq

/-- Configuration normalisation performed by both constructors (NewTrait
in trait.go and newTrait in the sync.Map file): each of the five listed
fields, when zero, is replaced by its default.  The remaining fields,
EvictFraction among them, are left exactly as configured. -/
def NewTraitConfig (config : Config) : Config :=
  { config with
    DeleteExpiredAfter :=
      if config.DeleteExpiredAfter = 0 then 24 * nsPerHour
      else config.DeleteExpiredAfter
    DeleteExpiredJobInterval :=
      if config.DeleteExpiredJobInterval = 0 then nsPerHour
      else config.DeleteExpiredJobInterval
    ItemsCountReportInterval :=
      if config.ItemsCountReportInterval = 0 then nsPerMinute
      else config.ItemsCountReportInterval
    ExpirationJitter :=
      if config.ExpirationJitter = 0 then 1/10
      else config.ExpirationJitter
    TimeToLive :=
      if config.TimeToLive = 0 then 5 * nsPerMinute
      else config.TimeToLive }

/-- The default fraction installed at the point of use (janitor and
evictOldest) when Config.EvictFraction is zero. -/
def evictFractionDefault : ℚ := 1/10

/-- trait.TTL from the sync.Map-era trait: ctxTTL is the per-call TTL
override read from the context (DefaultTTL when absent) and r is the
rand.Float64 draw.  The override, when zero, is replaced by
config.TimeToLive; a positive jitter then perturbs the result by
ttl * jitter * (r - 0.5), truncated toward zero as time.Duration. -/
def trait.TTL (cfg : Config) (ctxTTL : Int) (r : ℚ) : Int :=
  let ttl := if ctxTTL = DefaultTTL then cfg.TimeToLive else ctxTTL
  if 0 < cfg.ExpirationJitter then
    ttl + truncF ((ttl : ℚ) * cfg.ExpirationJitter * (r - 1/2))
  else
    ttl

/-- Trait.TTL from trait.go: as trait.TTL, except that when no per-call
override is present and config.TimeToLive is the UnlimitedTTL sentinel it
returns 0 immediately (a per-call override equal to UnlimitedTTL takes
the ordinary path). -/
def Trait.TTL (cfg : Config) (ctxTTL : Int) (r : ℚ) : Int :=
  if ctxTTL = DefaultTTL ∧ cfg.TimeToLive = UnlimitedTTL then 0
  else
    let ttl := if ctxTTL = DefaultTTL then cfg.TimeToLive else ctxTTL
    if 0 < cfg.ExpirationJitter then
      ttl + truncF ((ttl : ℚ) * cfg.ExpirationJitter * (r - 1/2))
    else
      ttl

/-- Trait.expireAt from trait.go: a nonzero TTL yields the expiration
instant now + ttl; a zero TTL yields the (0, 0) sentinel pair. -/
def Trait.expireAt (cfg : Config) (ctxTTL : Int) (r : ℚ) (now : Instant) :
    Int × Instant :=
  let ttl := Trait.TTL cfg ctxTTL r
  if ttl ≠ 0 then (ttl, now + ttl) else (0, 0)

/-- entry: the cache entry stored by the sync.Map backend (key copy,
value, expiration as time.Time). -/
structure entry (κ α : Type) where
  K : κ
  V : α
  E : Instant
deriving DecidableEq

/-- TraitEntry: the cache entry of trait.go (key, value, expiration as an
int64 nanosecond timestamp whose zero value means never). -/
structure TraitEntry (κ α : Type) where
  K : κ
  V : α
  E : Int
deriving DecidableEq

/-- Outcome of a read against the sync.Map backend: the (value, error)
pair of Read collapsed to its three possible shapes, the expired case
carrying the entry held by the errExpired value. -/
inductive ReadResult (κ α : Type) where
  | notFound
  | expired (e : entry κ α)
  | hit (v : α)
deriving DecidableEq

/-- Outcome of Trait.PrepareRead, the expired case carrying the entry
held by the errExpired value. -/
inductive TraitReadResult (κ α : Type) where
  | notFound
  | expired (e : TraitEntry κ α)
  | hit (v : α)
deriving DecidableEq

/-- trait.prepareRead from the sync.Map-era trait: the Go (cacheEntry,
found) pair becomes an Option (none for found = false).  A found entry is
expired exactly when E.Before(now). -/
def trait.prepareRead {κ α : Type} (cacheEntry : Option (entry κ α))
    (now : Instant) : ReadResult κ α :=
  match cacheEntry with
  | none => ReadResult.notFound
  | some e => if e.E < now then ReadResult.expired e else ReadResult.hit e.V

/-- Trait.PrepareRead from trait.go: as trait.prepareRead, but an entry
whose expiration field is the zero sentinel is never expired (the test is
E != 0 && E < now). -/
def Trait.PrepareRead {κ α : Type} (cacheEntry : Option (TraitEntry κ α))
    (now : Instant) : TraitReadResult κ α :=
  match cacheEntry with
  | none => TraitReadResult.notFound
  | some e =>
    if e.E ≠ 0 ∧ e.E < now then TraitReadResult.expired e
    else TraitReadResult.hit e.V

/-- The sync.Map store: an association list from map key (string(k) in
Go) to entry, the list order standing for the unspecified Range order. -/
abbrev SMap (κ α : Type) := List (κ × entry κ α)

/-- sync.Map.Load: the entry stored under k, if any. -/
def mload {κ α : Type} [DecidableEq κ] (k : κ) (m : SMap κ α) :
    Option (entry κ α) :=
  match m.find? (fun p => decide (p.1 = k)) with
  | some p => some p.2
  | none => none

/-- sync.Map.Store: replaces the binding of k, or appends one. -/
def mstore {κ α : Type} [DecidableEq κ] (k : κ) (e : entry κ α) :
    SMap κ α → SMap κ α
  | [] => [(k, e)]
  | p :: rest => if p.1 = k then (k, e) :: rest else p :: mstore k e rest

/-- sync.Map.Delete: removes any binding of k. -/
def mdelete {κ α : Type} [DecidableEq κ] (k : κ) (m : SMap κ α) : SMap κ α :=
  m.filter (fun p => decide (p.1 ≠ k))

/-- The error returned by the public Deleter contract for absent keys. -/
inductive CacheErr where
  | notFound
deriving DecidableEq

/-- syncMap.Read: honours the skip-read context flag, then delegates the
point lookup to trait.prepareRead. -/
def syncMap.Read {κ α : Type} [DecidableEq κ] (m : SMap κ α)
    (skipRead : Bool) (k : κ) (now : Instant) : ReadResult κ α :=
  if skipRead then ReadResult.notFound
  else trait.prepareRead (mload k m) now

/-- syncMap.Write: computes the TTL via trait.TTL and stores the entry
with expiration now + ttl (the defensive key copy is a memory-level
detail with no observable effect here). -/
def syncMap.Write {κ α : Type} [DecidableEq κ] (cfg : Config) (m : SMap κ α)
    (k : κ) (v : α) (ctxTTL : Int) (r : ℚ) (now : Instant) : SMap κ α :=
  mstore k { K := k, V := v, E := now + trait.TTL cfg ctxTTL r } m

/-- syncMap.Delete: removes the binding and returns nil unconditionally
(the error component is always none, for present and absent keys alike). -/
def syncMap.Delete {κ α : Type} [DecidableEq κ] (m : SMap κ α) (k : κ) :
    SMap κ α × Option CacheErr :=
  (mdelete k m, none)

/-- syncMap.ExpireAll: rewrites every entry's expiration to the start
instant (time.Now() captured once), deleting nothing. -/
def syncMap.ExpireAll {κ α : Type} (m : SMap κ α) (start : Instant) :
    SMap κ α :=
  m.map (fun p => (p.1, { p.2 with E := start }))

/-- syncMap.Len: counts the entries by ranging over the store. -/
def syncMap.Len {κ α : Type} (m : SMap κ α) : Nat := m.length

/-- The Range loop inside syncMap.Walk, carried out from a count
accumulator: the callback is threaded through a state of type σ (the Go
callback is a closure; its captured mutable state is made explicit), and
the first callback error stops the walk. -/
def walkFrom {κ α σ ε : Type} (walkFn : σ → entry κ α → Except ε σ) :
    SMap κ α → σ → Nat → Nat × Option ε × σ
  | [], s, n => (n, none, s)
  | p :: rest, s, n =>
    match walkFn s p.2 with
    | Except.error err => (n, some err, s)
    | Except.ok s2 => walkFrom walkFn rest s2 (n + 1)

/-- syncMap.Walk: ranges over the store, invoking the callback on every
entry, stopping at the first error; returns the count of entries
processed before the error (or all of them) and the error, if any. -/
def syncMap.Walk {κ α σ ε : Type} (m : SMap κ α)
    (walkFn : σ → entry κ α → Except ε σ) (s : σ) : Nat × Option ε × σ :=
  walkFrom walkFn m s 0

/-- SyncMap.Dump: Walk with the gob-encode-to-sink callback; the encoder
is opaque standard-library code, so it is abstracted as an arbitrary
fallible state-threaded callback over the sink state σ. -/
def SyncMap.Dump {κ α σ ε : Type} (m : SMap κ α)
    (encode : σ → entry κ α → Except ε σ) (s : σ) : Nat × Option ε × σ :=
  syncMap.Walk m encode s

/-- The decode loop of SyncMap.Restore, from a count accumulator.  The
gob decoder is opaque standard-library code, so its output is abstracted
as a stream of decode results; the end of the list is io.EOF, which
terminates without error, and a mid-stream decode error returns the count
so far with the store as restored up to that point.  Each decoded record
is stored under its own key, overwriting any previous binding. -/
def restoreLoop {κ α ε : Type} [DecidableEq κ] (m : SMap κ α) (n : Nat) :
    List (Except ε (entry κ α)) → Nat × Option ε × SMap κ α
  | [] => (n, none, m)
  | Except.error err :: _ => (n, some err, m)
  | Except.ok e :: rest => restoreLoop (mstore e.K e m) (n + 1) rest

/-- SyncMap.Restore: the decode loop started at count 0. -/
def SyncMap.Restore {κ α ε : Type} [DecidableEq κ] (m : SMap κ α)
    (stream : List (Except ε (entry κ α))) : Nat × Option ε × SMap κ α :=
  restoreLoop m 0 stream

/-- One step of the insertion sort used to embed the sort.Slice call of
evictOldest (ascending by expiration). -/
def insertByE {κ : Type} (x : κ × Instant) :
    List (κ × Instant) → List (κ × Instant)
  | [] => [x]
  | y :: ys => if x.2 ≤ y.2 then x :: y :: ys else y :: insertByE x ys

/-- The sort of evictOldest: sort.Slice with comparator
expireAt.Before, i.e. ascending by expiration.  sort.Slice promises no
particular order between equal expirations (and no stability), so this
executable sort is faithful on snapshots whose expirations are pairwise
distinct; theorems sensitive to the order carry that hypothesis. -/
def sortByE {κ : Type} : List (κ × Instant) → List (κ × Instant)
  | [] => []
  | x :: xs => insertByE x (sortByE xs)

/-- syncMap.evictOldest: snapshots (key, expireAt) pairs over Range,
sorts ascending by expiration, computes evictItems as
int(float64(len) * fraction) with a zero configured fraction defaulted to
0.1, deletes the first evictItems entries of the sorted order, and
publishes evictItems as the evict metric (returned here as the second
component; the Go function itself returns nothing). -/
def syncMap.evictOldest {κ α : Type} [DecidableEq κ] (cfg : Config)
    (m : SMap κ α) : SMap κ α × Int :=
  let evictFraction :=
    if cfg.EvictFraction = 0 then evictFractionDefault else cfg.EvictFraction
  let entries := m.map (fun p => (p.2.K, p.2.E))
  let sorted := sortByE entries
  let evictItems := truncF ((entries.length : ℚ) * evictFraction)
  ((sorted.take evictItems.toNat).foldl (fun acc q => mdelete q.1 acc) m,
    evictItems)

/-- syncMap.heapInUseOverflow: a zero soft limit disables the check;
otherwise the process heap-in-use figure (passed explicitly, as the
runtime probe is ambient state) is compared with >= . -/
def syncMap.heapInUseOverflow (cfg : Config) (heapInuse : Nat) : Bool :=
  if cfg.HeapInUseSoftLimit = 0 then false
  else decide (cfg.HeapInUseSoftLimit ≤ heapInuse)

/-- syncMap.countOverflow: a zero soft limit disables the check;
otherwise Len() is compared with >= . -/
def syncMap.countOverflow {κ α : Type} (cfg : Config) (m : SMap κ α) : Bool :=
  if cfg.CountSoftLimit = 0 then false
  else decide (cfg.CountSoftLimit ≤ syncMap.Len m)

/-- syncMap.deleteExpiredBefore: deletes every entry whose expiration is
before the boundary, then, if either soft limit is breached (the count
checked against the post-deletion length), runs evictOldest. -/
def syncMap.deleteExpiredBefore {κ α : Type} [DecidableEq κ] (cfg : Config)
    (m : SMap κ α) (expirationBoundary : Instant) (heapInuse : Nat) :
    SMap κ α :=
  let m2 := m.filter (fun p => decide (¬ p.2.E < expirationBoundary))
  if syncMap.heapInUseOverflow cfg heapInuse || syncMap.countOverflow cfg m2
  then (syncMap.evictOldest cfg m2).1
  else m2

/-- Trait.heapInUseOverflow from trait.go (same logic as the sync.Map
version). -/
def Trait.heapInUseOverflow (cfg : Config) (heapInuse : Nat) : Bool :=
  if cfg.HeapInUseSoftLimit = 0 then false
  else decide (cfg.HeapInUseSoftLimit ≤ heapInuse)

/-- Trait.countOverflow from trait.go, with the backend Len callback
wired (the nil-callback guard is outside this model). -/
def Trait.countOverflow (cfg : Config) (len : Nat) : Bool :=
  if cfg.CountSoftLimit = 0 then false
  else decide (cfg.CountSoftLimit ≤ len)

/-- The three callbacks a backend supplies to the trait.go Trait, acting
on backend state σ; EvictOldest returns the number of evicted entries. -/
structure Backend (σ : Type) where
  DeleteExpired : Instant → σ → σ
  Len : σ → Nat
  EvictOldest : ℚ → σ → σ × Int

/-- One timer tick of the trait.go janitor, with both callbacks wired:
DeleteExpired runs on the cutoff now - DeleteExpiredAfter; then, if
either overflow check fires (Len observed after the deletion), EvictOldest
runs with the configured fraction (a zero fraction defaulted to 0.1) and
its returned count is published as the evict metric.  Returns the backend
state, whether eviction was invoked, and the published count if any. -/
def Trait.janitorTick {σ : Type} (cfg : Config) (b : Backend σ) (st : σ)
    (now : Instant) (heapInuse : Nat) : σ × Bool × Option Int :=
  let st1 := b.DeleteExpired (now - cfg.DeleteExpiredAfter) st
  if Trait.heapInUseOverflow cfg heapInuse
      || Trait.countOverflow cfg (b.Len st1) then
    let frac :=
      if cfg.EvictFraction = 0 then evictFractionDefault else cfg.EvictFraction
    let res := b.EvictOldest frac st1
    (res.1, true, some res.2)
  else
    (st1, false, none)

/-- The all-zero configuration (the zero value of the Config struct). -/
def cfgZero : Config :=
  { Name := "", TimeToLive := 0, ExpirationJitter := 0, DeleteExpiredAfter := 0,
    DeleteExpiredJobInterval := 0, ItemsCountReportInterval := 0,
    HeapInUseSoftLimit := 0, CountSoftLimit := 0, EvictFraction := 0 }

/-- A constructor-normalised configuration (jitter 0.1, TTL 5 minutes). -/
def cfgW : Config := NewTraitConfig cfgZero

/-- A configuration whose TimeToLive is the UnlimitedTTL sentinel. -/
def cfgU : Config := { cfgZero with TimeToLive := UnlimitedTTL }

/-- A configuration with a count soft limit of 5. -/
def cfg9 : Config := { cfgZero with CountSoftLimit := 5 }

/-- A toy backend over Nat state: deletion and eviction keep the state,
eviction reports 3 evicted entries. -/
def bW : Backend Nat :=
  { DeleteExpired := fun _ s => s, Len := fun s => s,
    EvictOldest := fun _ s => (s, 3) }

/-- A configuration with evict fraction one half. -/
def cfgC5 : Config := { cfgZero with EvictFraction := 1/2 }

/-- A two-entry store holding one never-expiring entry (the zero
expiration sentinel) and one entry expiring at instant 100. -/
def m5 : SMap Nat Nat :=
  [(1, { K := 1, V := 10, E := 0 }), (2, { K := 2, V := 20, E := 100 })]

/-- A three-entry store for walk experiments. -/
def m7 : SMap Nat Nat :=
  [(1, { K := 1, V := 10, E := 5 }), (2, { K := 2, V := 20, E := 6 }),
    (3, { K := 3, V := 30, E := 7 })]

/-- A walk callback that always succeeds, counting the entries visited. -/
def f7ok : Nat → entry Nat Nat → Except Unit Nat :=
  fun s _ => Except.ok (s + 1)

theorem mload_cons {κ α : Type} [DecidableEq κ] (k : κ) (p : κ × entry κ α)
    (m : SMap κ α) :
    mload k (p :: m) = if p.1 = k then some p.2 else mload k m := by
  by_cases h : p.1 = k <;> simp [mload, List.find?, h]

theorem mload_mstore_self {κ α : Type} [DecidableEq κ] (k : κ)
    (e : entry κ α) (m : SMap κ α) : mload k (mstore k e m) = some e := by
  induction m with
  | nil => simp [mstore, mload, List.find?]
  | cons p rest ih =>
    by_cases h : p.1 = k
    · simp [mstore, h, mload_cons]
    · simp [mstore, h, mload_cons, ih]

theorem mload_mstore_ne {κ α : Type} [DecidableEq κ] (k k2 : κ)
    (hne : k2 ≠ k) (e : entry κ α) (m : SMap κ α) :
    mload k2 (mstore k e m) = mload k2 m := by
  induction m with
  | nil => simp [mstore, mload_cons, mload, Ne.symm hne]
  | cons p rest ih =>
    by_cases h : p.1 = k
    · simp [mstore, h, mload_cons, Ne.symm hne, h ▸ Ne.symm hne]
    · simp [mstore, h, mload_cons, ih]

theorem mload_mdelete_self {κ α : Type} [DecidableEq κ] (k : κ)
    (m : SMap κ α) : mload k (mdelete k m) = none := by
  induction m with
  | nil => simp [mdelete, mload, List.find?]
  | cons p rest ih =>
    by_cases h : p.1 = k
    · simpa [mdelete, h] using ih
    · simpa [mdelete, h, mload_cons] using ih

theorem mload_expireAll {κ α : Type} [DecidableEq κ] (k : κ) (m : SMap κ α)
    (start : Instant) :
    mload k (syncMap.ExpireAll m start) =
      (mload k m).map (fun e => { e with E := start }) := by
  induction m with
  | nil => simp [syncMap.ExpireAll, mload, List.find?]
  | cons p rest ih =>
    by_cases h : p.1 = k
    · simp [syncMap.ExpireAll, mload_cons, h]
    · simpa [syncMap.ExpireAll, mload_cons, h] using ih

/-- C2 counterexample: in Trait.PrepareRead an entry can be found with an
expiration strictly before now and still be returned as a hit rather than
Expired, because the zero expiration (the never sentinel, produced by
expireAt for unlimited TTL) is exempted from the expiry test.  Here the
entry has expire_at 0, now is 5, 0 < 5, yet the result is the value. -/
theorem C2_counterexample :
    Trait.PrepareRead (some { K := (1 : Nat), V := (42 : Nat), E := 0 }) 5 =
      TraitReadResult.hit 42 ∧ (0 : Int) < 5 := by
  decide

/-- C2 amended: read preparation classifies every lookup into exactly
three outcomes: not found is ErrNotFound; found with an expiration that
is nonzero (not the never sentinel) and strictly before now is ErrExpired
carrying the entry; found otherwise is the stored value with no error.
In the sync.Map-era trait.prepareRead (whose entries carry time.Time
expirations and which has no sentinel exemption) the original trichotomy
holds verbatim. -/
theorem C2_read_classification {κ α : Type} (e : TraitEntry κ α)
    (e2 : entry κ α) (now : Instant) :
    (Trait.PrepareRead (none : Option (TraitEntry κ α)) now =
      TraitReadResult.notFound) ∧
    (e.E ≠ 0 → e.E < now →
      Trait.PrepareRead (some e) now = TraitReadResult.expired e) ∧
    (e.E = 0 ∨ ¬ e.E < now →
      Trait.PrepareRead (some e) now = TraitReadResult.hit e.V) ∧
    (trait.prepareRead (none : Option (entry κ α)) now =
      ReadResult.notFound) ∧
    (e2.E < now → trait.prepareRead (some e2) now = ReadResult.expired e2) ∧
    (¬ e2.E < now → trait.prepareRead (some e2) now = ReadResult.hit e2.V) := by
  refine ⟨rfl, ?_, ?_, rfl, ?_, ?_⟩
  · intro h1 h2
    simp [Trait.PrepareRead, h1, h2]
  · intro h
    have hneg : ¬ (e.E ≠ 0 ∧ e.E < now) := by tauto
    simp only [Trait.PrepareRead]
    rw [if_neg hneg]
  · intro h
    simp [trait.prepareRead, h]
  · intro h
    simp [trait.prepareRead, h]

theorem C2_witness :
    Trait.PrepareRead (some { K := (1 : Nat), V := (7 : Nat), E := 2 }) 5 =
      TraitReadResult.expired { K := 1, V := 7, E := 2 } :=
  (C2_read_classification { K := 1, V := 7, E := 2 }
    { K := (1 : Nat), V := (7 : Nat), E := 2 } 5).2.1 (by decide) (by decide)

/-- C3: syncMap.Delete, the only Deleter implementation provided, returns
no error for every key, present or absent, while removing any binding;
it never returns the ErrNotFound the Deleter interface documents. -/
theorem C3_delete_returns_nil {κ α : Type} [DecidableEq κ] (m : SMap κ α)
    (k : κ) :
    (syncMap.Delete m k).2 = none ∧
    mload k (syncMap.Delete m k).1 = none :=
  ⟨rfl, mload_mdelete_self k m⟩

/-- C4: a zero effective TTL makes Trait.expireAt store the (0, 0) never
sentinel, and Trait.PrepareRead treats a zero expiration as non-expiring
at every read instant, returning the value. -/
theorem C4_zero_ttl_sentinel {κ α : Type} (cfg : Config) (ctxTTL : Int)
    (r : ℚ) (now : Instant) (h : Trait.TTL cfg ctxTTL r = 0)
    (e : TraitEntry κ α) (he : e.E = 0) (now2 : Instant) :
    Trait.expireAt cfg ctxTTL r now = (0, 0) ∧
    Trait.PrepareRead (some e) now2 = TraitReadResult.hit e.V := by
  constructor
  · simp [Trait.expireAt, h]
  · simp [Trait.PrepareRead, he]

theorem C4_witness :
    Trait.expireAt cfgU 0 (1/3) 777 = (0, 0) ∧
    Trait.PrepareRead (some { K := (1 : Nat), V := (9 : Nat), E := 0 }) 999 =
      TraitReadResult.hit 9 :=
  C4_zero_ttl_sentinel cfgU 0 (1/3) 777 (by decide)
    { K := 1, V := 9, E := 0 } rfl 999

theorem heapInUseOverflow_iff (cfg : Config) (heapInuse : Nat) :
    Trait.heapInUseOverflow cfg heapInuse = true ↔
      0 < cfg.HeapInUseSoftLimit ∧ cfg.HeapInUseSoftLimit ≤ heapInuse := by
  by_cases h0 : cfg.HeapInUseSoftLimit = 0
  · simp [Trait.heapInUseOverflow, h0]
  · simp [Trait.heapInUseOverflow, h0]
    omega

theorem countOverflow_iff (cfg : Config) (len : Nat) :
    Trait.countOverflow cfg len = true ↔
      0 < cfg.CountSoftLimit ∧ cfg.CountSoftLimit ≤ len := by
  by_cases h0 : cfg.CountSoftLimit = 0
  · simp [Trait.countOverflow, h0]
  · simp [Trait.countOverflow, h0]
    omega

theorem janitorTick_eq_pos {σ : Type} (cfg : Config) (b : Backend σ)
    (st : σ) (now : Instant) (heapInuse : Nat)
    (hc : (Trait.heapInUseOverflow cfg heapInuse
      || Trait.countOverflow cfg
        (b.Len (b.DeleteExpired (now - cfg.DeleteExpiredAfter) st))) = true) :
    Trait.janitorTick cfg b st now heapInuse =
      ((b.EvictOldest
          (if cfg.EvictFraction = 0 then evictFractionDefault
            else cfg.EvictFraction)
          (b.DeleteExpired (now - cfg.DeleteExpiredAfter) st)).1, true,
        some (b.EvictOldest
          (if cfg.EvictFraction = 0 then evictFractionDefault
            else cfg.EvictFraction)
          (b.DeleteExpired (now - cfg.DeleteExpiredAfter) st)).2) := by
  simp [Trait.janitorTick, hc]

theorem janitorTick_eq_neg {σ : Type} (cfg : Config) (b : Backend σ)
    (st : σ) (now : Instant) (heapInuse : Nat)
    (hc : ¬ (Trait.heapInUseOverflow cfg heapInuse
      || Trait.countOverflow cfg
        (b.Len (b.DeleteExpired (now - cfg.DeleteExpiredAfter) st))) = true) :
    Trait.janitorTick cfg b st now heapInuse =
      (b.DeleteExpired (now - cfg.DeleteExpiredAfter) st, false, none) := by
  simp [Trait.janitorTick, hc]

/-- C9: on a janitor tick, DeleteExpired is passed the cutoff
now - DeleteExpiredAfter; after the deletion, eviction is invoked exactly
when the heap soft limit is positive and the heap-in-use figure is at or
above it, or the count soft limit is positive and the post-deletion Len
is at or above it (a zero soft limit never triggers on its own); when
eviction runs, the state is the evicted one and the count EvictOldest
returned is published. -/
theorem C9_janitor_condition {σ : Type} (cfg : Config) (b : Backend σ)
    (st : σ) (now : Instant) (heapInuse : Nat) :
    ((Trait.janitorTick cfg b st now heapInuse).2.1 = true ↔
      (0 < cfg.HeapInUseSoftLimit ∧ cfg.HeapInUseSoftLimit ≤ heapInuse) ∨
      (0 < cfg.CountSoftLimit ∧ cfg.CountSoftLimit ≤
        b.Len (b.DeleteExpired (now - cfg.DeleteExpiredAfter) st))) ∧
    ((Trait.janitorTick cfg b st now heapInuse).2.1 = false →
      (Trait.janitorTick cfg b st now heapInuse).1 =
        b.DeleteExpired (now - cfg.DeleteExpiredAfter) st ∧
      (Trait.janitorTick cfg b st now heapInuse).2.2 = none) ∧
    ((Trait.janitorTick cfg b st now heapInuse).2.1 = true →
      (Trait.janitorTick cfg b st now heapInuse).1 =
        (b.EvictOldest
          (if cfg.EvictFraction = 0 then evictFractionDefault
            else cfg.EvictFraction)
          (b.DeleteExpired (now - cfg.DeleteExpiredAfter) st)).1 ∧
      (Trait.janitorTick cfg b st now heapInuse).2.2 =
        some (b.EvictOldest
          (if cfg.EvictFraction = 0 then evictFractionDefault
            else cfg.EvictFraction)
          (b.DeleteExpired (now - cfg.DeleteExpiredAfter) st)).2) := by
  by_cases hc : (Trait.heapInUseOverflow cfg heapInuse
      || Trait.countOverflow cfg
        (b.Len (b.DeleteExpired (now - cfg.DeleteExpiredAfter) st))) = true
  · have hc2 := hc
    rw [Bool.or_eq_true, heapInUseOverflow_iff, countOverflow_iff] at hc2
    refine ⟨?_, ?_, ?_⟩
    · rw [janitorTick_eq_pos cfg b st now heapInuse hc]
      exact iff_of_true rfl hc2
    · intro hfalse
      rw [janitorTick_eq_pos cfg b st now heapInuse hc] at hfalse
      simp at hfalse
    · intro _
      rw [janitorTick_eq_pos cfg b st now heapInuse hc]
      exact ⟨rfl, rfl⟩
  · have hc2 := hc
    rw [Bool.or_eq_true, heapInUseOverflow_iff, countOverflow_iff] at hc2
    refine ⟨?_, ?_, ?_⟩
    · rw [janitorTick_eq_neg cfg b st now heapInuse hc]
      exact iff_of_false (by simp) hc2
    · intro _
      rw [janitorTick_eq_neg cfg b st now heapInuse hc]
      exact ⟨rfl, rfl⟩
    · intro htrue
      rw [janitorTick_eq_neg cfg b st now heapInuse hc] at htrue
      simp at htrue

theorem C9_witness :
    (Trait.janitorTick cfg9 bW 7 100 0).2.1 = true :=
  (C9_janitor_condition cfg9 bW 7 100 0).1.mpr
    (Or.inr ⟨by decide, by decide⟩)

/-- C10 counterexample: the constructor does not replace every
zero-valued configuration field with its default: a configured
EvictFraction of 0 survives construction unchanged even though its
default, 0.1, is nonzero (that default is installed only at the point of
use, in the janitor and in evictOldest). -/
theorem C10_counterexample :
    cfgZero.EvictFraction = 0 ∧
    (NewTraitConfig cfgZero).EvictFraction = 0 ∧
    evictFractionDefault ≠ 0 ∧
    (NewTraitConfig cfgZero).EvictFraction ≠ evictFractionDefault := by
  refine ⟨rfl, rfl, ?_, ?_⟩
  · norm_num [evictFractionDefault]
  · show (0 : ℚ) ≠ evictFractionDefault
    norm_num [evictFractionDefault]

/-- C10 amended: the constructor replaces a zero value of each of the
five fields DeleteExpiredAfter, DeleteExpiredJobInterval,
ItemsCountReportInterval, ExpirationJitter and TimeToLive with its
default (24h, 1h, 1min, 0.1 and 5min respectively), leaving the other
fields, EvictFraction among them, exactly as configured; in particular a
zero jitter becomes 0.1, so for any nonnegative configured jitter the
constructed cache has strictly positive jitter, and a zero TimeToLive
becomes 5 minutes. -/
theorem C10_constructor_defaults (config : Config) :
    (NewTraitConfig config).DeleteExpiredAfter =
      (if config.DeleteExpiredAfter = 0 then 24 * nsPerHour
        else config.DeleteExpiredAfter) ∧
    (NewTraitConfig config).DeleteExpiredJobInterval =
      (if config.DeleteExpiredJobInterval = 0 then nsPerHour
        else config.DeleteExpiredJobInterval) ∧
    (NewTraitConfig config).ItemsCountReportInterval =
      (if config.ItemsCountReportInterval = 0 then nsPerMinute
        else config.ItemsCountReportInterval) ∧
    (NewTraitConfig config).ExpirationJitter =
      (if config.ExpirationJitter = 0 then 1/10
        else config.ExpirationJitter) ∧
    (NewTraitConfig config).TimeToLive =
      (if config.TimeToLive = 0 then 5 * nsPerMinute
        else config.TimeToLive) ∧
    (NewTraitConfig config).Name = config.Name ∧
    (NewTraitConfig config).HeapInUseSoftLimit =
      config.HeapInUseSoftLimit ∧
    (NewTraitConfig config).CountSoftLimit = config.CountSoftLimit ∧
    (NewTraitConfig config).EvictFraction = config.EvictFraction ∧
    (0 ≤ config.ExpirationJitter →
      0 < (NewTraitConfig config).ExpirationJitter) ∧
    (config.TimeToLive = 0 →
      (NewTraitConfig config).TimeToLive = 5 * nsPerMinute) := by
  refine ⟨rfl, rfl, rfl, rfl, rfl, rfl, rfl, rfl, rfl, ?_, ?_⟩
  · intro h
    by_cases h0 : config.ExpirationJitter = 0
    · simp only [NewTraitConfig, h0, if_true]
      norm_num
    · simp only [NewTraitConfig, h0, if_false]
      exact lt_of_le_of_ne h (Ne.symm h0)
  · intro h
    simp [NewTraitConfig, h]

theorem C10_witness :
    0 < (NewTraitConfig cfgZero).ExpirationJitter ∧
    (NewTraitConfig cfgZero).TimeToLive = 5 * nsPerMinute :=
  ⟨(C10_constructor_defaults cfgZero).2.2.2.2.2.2.2.2.2.1 (le_refl 0),
    (C10_constructor_defaults cfgZero).2.2.2.2.2.2.2.2.2.2 rfl⟩

theorem truncF_eq_zero (q : ℚ) (h1 : -1 < q) (h2 : q < 1) : truncF q = 0 := by
  unfold truncF
  by_cases h : 0 ≤ q
  · rw [if_pos h]
    exact Int.floor_eq_zero_iff.mpr ⟨h, h2⟩
  · rw [if_neg h]
    exact Int.ceil_eq_zero_iff.mpr ⟨h1, le_of_not_le h⟩

theorem trait_TTL_unf (cfg : Config) (r : ℚ) :
    trait.TTL cfg UnlimitedTTL r =
      if 0 < cfg.ExpirationJitter then
        UnlimitedTTL +
          truncF ((UnlimitedTTL : ℚ) * cfg.ExpirationJitter * (r - 1/2))
      else UnlimitedTTL := rfl

theorem Trait_TTL_unf (cfg : Config) (r : ℚ) :
    Trait.TTL cfg UnlimitedTTL r =
      if 0 < cfg.ExpirationJitter then
        UnlimitedTTL +
          truncF ((UnlimitedTTL : ℚ) * cfg.ExpirationJitter * (r - 1/2))
      else UnlimitedTTL := rfl

/-- With any jitter fraction at most 1 (the documented domain is the unit
interval) the jitter perturbation of the -1ns override truncates to zero,
so both TTL computations return exactly -1ns for a per-call UnlimitedTTL
override. -/
theorem trait_TTL_unlimited (cfg : Config) (hj : cfg.ExpirationJitter ≤ 1)
    (r : ℚ) (hr0 : 0 ≤ r) (hr1 : r < 1) :
    trait.TTL cfg UnlimitedTTL r = -1 := by
  rw [trait_TTL_unf]
  by_cases hjpos : 0 < cfg.ExpirationJitter
  · rw [if_pos hjpos]
    have ht : truncF ((UnlimitedTTL : ℚ) * cfg.ExpirationJitter * (r - 1/2))
        = 0 := by
      apply truncF_eq_zero
      · norm_num [UnlimitedTTL]
        nlinarith
      · norm_num [UnlimitedTTL]
        nlinarith
    rw [ht]
    norm_num [UnlimitedTTL]
  · rw [if_neg hjpos]
    norm_num [UnlimitedTTL]

theorem Trait_TTL_unlimited (cfg : Config) (hj : cfg.ExpirationJitter ≤ 1)
    (r : ℚ) (hr0 : 0 ≤ r) (hr1 : r < 1) :
    Trait.TTL cfg UnlimitedTTL r = -1 := by
  rw [Trait_TTL_unf]
  rw [← trait_TTL_unf]
  exact trait_TTL_unlimited cfg hj r hr0 hr1

/-- C1: a write with a per-call ttl_override of UnlimitedTTL (-1) does
not produce a never-expiring entry.  Neither TTL computation special
cases the -1 override (only Trait.TTL handles a config TimeToLive of -1,
and only when no override is present), so the effective TTL is exactly
-1ns, the entry is stored with expire_at one nanosecond before the write
instant, and every read at or after the write classifies it as Expired:
in the sync.Map backend the full Write-then-Read round trip returns
ErrExpired, and in the trait.go machinery PrepareRead on the entry
produced by expireAt returns Expired whenever that timestamp is not
accidentally the zero sentinel. -/
theorem C1_unlimited_override_expires {κ α : Type} [DecidableEq κ]
    (cfg : Config) (hj : cfg.ExpirationJitter ≤ 1) (r : ℚ) (hr0 : 0 ≤ r)
    (hr1 : r < 1) (m : SMap κ α) (k : κ) (v : α) (w t : Instant)
    (hwt : w ≤ t) :
    syncMap.Read (syncMap.Write cfg m k v UnlimitedTTL r w) false k t =
      ReadResult.expired { K := k, V := v, E := w - 1 } ∧
    Trait.TTL cfg UnlimitedTTL r = -1 ∧
    (w - 1 ≠ 0 →
      Trait.PrepareRead
        (some { K := k, V := v,
                E := (Trait.expireAt cfg UnlimitedTTL r w).2 }) t =
        TraitReadResult.expired { K := k, V := v, E := w - 1 }) := by
  have h1 : trait.TTL cfg UnlimitedTTL r = -1 :=
    trait_TTL_unlimited cfg hj r hr0 hr1
  have h2 : Trait.TTL cfg UnlimitedTTL r = -1 :=
    Trait_TTL_unlimited cfg hj r hr0 hr1
  have hE : w + trait.TTL cfg UnlimitedTTL r = w - 1 := by
    rw [h1]
    ring
  refine ⟨?_, h2, ?_⟩
  · unfold syncMap.Write
    rw [hE]
    show trait.prepareRead
      (mload k (mstore k { K := k, V := v, E := w - 1 } m)) t = _
    rw [mload_mstore_self]
    simp [trait.prepareRead, show w - 1 < t by linarith]
  · intro hw
    have hA : (Trait.expireAt cfg UnlimitedTTL r w).2 = w - 1 := by
      simp only [Trait.expireAt, h2]
      norm_num
      ring
    rw [hA]
    simp [Trait.PrepareRead, hw, show w - 1 < t by linarith]

theorem C1_witness :
    syncMap.Read
      (syncMap.Write cfgW ([] : SMap Nat Nat) 1 5 UnlimitedTTL (1/3) 100)
      false 1 200 = ReadResult.expired { K := 1, V := 5, E := 99 } ∧
    Trait.TTL cfgW UnlimitedTTL (1/3) = -1 ∧
    Trait.PrepareRead
      (some { K := (1 : Nat), V := (5 : Nat),
              E := (Trait.expireAt cfgW UnlimitedTTL (1/3) 100).2 }) 200 =
      TraitReadResult.expired { K := 1, V := 5, E := 99 } := by
  have h := @C1_unlimited_override_expires Nat Nat _ cfgW
    (by norm_num [cfgW, NewTraitConfig, cfgZero]) (1/3) (by norm_num)
    (by norm_num) [] 1 5 100 200 (by norm_num)
  exact ⟨h.1, h.2.1, h.2.2 (by norm_num)⟩

/-- C8: ExpireAll rewrites every entry expiration to the start instant
and removes nothing: the length is unchanged, every key and value
(and the store's key set) is unchanged, and a read of any previously
present key at any instant after the rewrite returns ErrExpired carrying
the stale value. -/
theorem C8_expireAll_frame {κ α : Type} [DecidableEq κ] (m : SMap κ α)
    (start now : Instant) (h : start < now) :
    syncMap.Len (syncMap.ExpireAll m start) = syncMap.Len m ∧
    (syncMap.ExpireAll m start).map (fun p => (p.1, p.2.K, p.2.V)) =
      m.map (fun p => (p.1, p.2.K, p.2.V)) ∧
    ∀ k e, mload k m = some e →
      syncMap.Read (syncMap.ExpireAll m start) false k now =
        ReadResult.expired { K := e.K, V := e.V, E := start } := by
  refine ⟨?_, ?_, ?_⟩
  · simp [syncMap.Len, syncMap.ExpireAll]
  · simp only [syncMap.ExpireAll, List.map_map]
    rfl
  · intro k e he
    show trait.prepareRead (mload k (syncMap.ExpireAll m start)) now = _
    rw [mload_expireAll, he]
    simp [trait.prepareRead, h]

theorem C8_witness :
    syncMap.Read
      (syncMap.ExpireAll [((1 : Nat), { K := 1, V := (42 : Nat), E := 1000 })]
        50) false 1 60 =
      ReadResult.expired { K := 1, V := 42, E := 50 } :=
  (C8_expireAll_frame [((1 : Nat), { K := 1, V := (42 : Nat), E := 1000 })]
    50 60 (by norm_num)).2.2 1 { K := 1, V := 42, E := 1000 } rfl

theorem restoreLoop_oks {κ α ε : Type} [DecidableEq κ]
    (oks : List (entry κ α)) (m : SMap κ α) (n : Nat) :
    restoreLoop m n
        (oks.map (Except.ok : entry κ α → Except ε (entry κ α))) =
      (n + oks.length, none,
        oks.foldl (fun acc e => mstore e.K e acc) m) := by
  induction oks generalizing m n with
  | nil => simp [restoreLoop]
  | cons e rest ih =>
    rw [List.map_cons]
    show restoreLoop (mstore e.K e m) (n + 1)
      (List.map Except.ok rest) = _
    rw [ih]
    simp only [List.length_cons, List.foldl_cons]
    congr 1
    omega

theorem restoreLoop_err {κ α ε : Type} [DecidableEq κ]
    (oks : List (entry κ α)) (err : ε) (rest : List (Except ε (entry κ α)))
    (m : SMap κ α) (n : Nat) :
    restoreLoop m n (oks.map Except.ok ++ Except.error err :: rest) =
      (n + oks.length, some err,
        oks.foldl (fun acc e => mstore e.K e acc) m) := by
  induction oks generalizing m n with
  | nil => simp [restoreLoop]
  | cons e rest2 ih =>
    rw [List.map_cons, List.cons_append]
    show restoreLoop (mstore e.K e m) (n + 1)
      (List.map Except.ok rest2 ++ Except.error err :: rest) = _
    rw [ih]
    simp only [List.length_cons, List.foldl_cons]
    congr 1
    omega

theorem mload_restored {κ α : Type} [DecidableEq κ]
    (oks : List (entry κ α)) (m : SMap κ α) (k : κ) :
    mload k (oks.foldl (fun acc e => mstore e.K e acc) m) =
      (match oks.reverse.find? (fun e => decide (e.K = k)) with
        | some e => some e
        | none => mload k m) := by
  induction oks using List.reverseRecOn with
  | nil => simp
  | append_singleton l e ih =>
    rw [List.foldl_append]
    by_cases hk : e.K = k
    · subst hk
      simp [mload_mstore_self]
    · rw [List.foldl_cons, List.foldl_nil]
      rw [mload_mstore_ne e.K k (fun h => hk h.symm) e]
      rw [ih]
      simp [List.find?_cons, hk]

/-- C6: Restore reads the decode stream sequentially, storing each record
under its own key and overwriting any previous binding; reaching the end
of the input returns the number of records stored with no error, while a
mid-stream decode error returns the number stored so far together with
the error, leaving the partially restored entries in place.  In the final
state, a lookup yields the last record of the stream with that key when
one exists, and the pre-restore binding otherwise. -/
theorem C6_restore_stream {κ α ε : Type} [DecidableEq κ] (m : SMap κ α)
    (oks : List (entry κ α)) (err : ε)
    (rest : List (Except ε (entry κ α))) (k : κ) :
    SyncMap.Restore m (oks.map Except.ok) =
      (oks.length, (none : Option ε),
        oks.foldl (fun acc e => mstore e.K e acc) m) ∧
    SyncMap.Restore m (oks.map Except.ok ++ Except.error err :: rest) =
      (oks.length, some err,
        oks.foldl (fun acc e => mstore e.K e acc) m) ∧
    mload k (oks.foldl (fun acc e => mstore e.K e acc) m) =
      (match oks.reverse.find? (fun e => decide (e.K = k)) with
        | some e => some e
        | none => mload k m) := by
  refine ⟨?_, ?_, mload_restored oks m k⟩
  · unfold SyncMap.Restore
    rw [restoreLoop_oks]
    simp
  · unfold SyncMap.Restore
    rw [restoreLoop_err]
    simp

theorem walkFrom_shift {κ α σ ε : Type} (f : σ → entry κ α → Except ε σ)
    (m : SMap κ α) (s : σ) (n : Nat) :
    walkFrom f m s n =
      ((walkFrom f m s 0).1 + n, (walkFrom f m s 0).2) := by
  induction m generalizing s n with
  | nil => simp [walkFrom]
  | cons p rest ih =>
    cases hf : f s p.2 with
    | error err => simp [walkFrom, hf]
    | ok s2 =>
      simp only [walkFrom, hf, Nat.zero_add]
      rw [ih s2 (n + 1), ih s2 1]
      congr 1
      omega

theorem walk_none_all {κ α σ ε : Type} (f : σ → entry κ α → Except ε σ)
    (m : SMap κ α) (s : σ) (h : (walkFrom f m s 0).2.1 = none) :
    (walkFrom f m s 0).1 = m.length := by
  induction m generalizing s with
  | nil => simp [walkFrom]
  | cons p rest ih =>
    cases hf : f s p.2 with
    | error err =>
      exfalso
      simp [walkFrom, hf] at h
    | ok s2 =>
      simp only [walkFrom, hf, Nat.zero_add] at h ⊢
      rw [walkFrom_shift] at h ⊢
      simp only [List.length_cons]
      have hx := ih s2 h
      simp only [hx]

theorem walk_err_decomp {κ α σ ε : Type} (f : σ → entry κ α → Except ε σ)
    (m : SMap κ α) (s : σ) (err : ε)
    (h : (walkFrom f m s 0).2.1 = some err) :
    ∃ pre p post s2, m = pre ++ p :: post ∧
      (walkFrom f m s 0).1 = pre.length ∧
      walkFrom f pre s 0 = (pre.length, none, s2) ∧
      f s2 p.2 = Except.error err := by
  induction m generalizing s with
  | nil => simp [walkFrom] at h
  | cons p rest ih =>
    cases hf : f s p.2 with
    | error e0 =>
      have he : e0 = err := by
        simp [walkFrom, hf] at h
        exact h
      refine ⟨[], p, rest, s, by simp, ?_, ?_, ?_⟩
      · simp [walkFrom, hf]
      · simp [walkFrom]
      · rw [hf, he]
    | ok s2 =>
      have h2 : (walkFrom f rest s2 0).2.1 = some err := by
        simp only [walkFrom, hf, Nat.zero_add] at h
        rw [walkFrom_shift] at h
        exact h
      obtain ⟨pre, q, post, s3, hm, hcount, hpre, hq⟩ := ih s2 h2
      refine ⟨p :: pre, q, post, s3, ?_, ?_, ?_, hq⟩
      · rw [hm, List.cons_append]
      · simp only [walkFrom, hf, Nat.zero_add]
        rw [walkFrom_shift, hcount, List.length_cons]
      · show walkFrom f (p :: pre) s 0 = _
        simp only [walkFrom, hf, Nat.zero_add]
        rw [walkFrom_shift, hpre, List.length_cons]

/-- C7: Walk invokes the callback on every entry in snapshot order,
stopping at the first callback error: with no error the count equals the
store size, and with an error the store splits as a prefix the callback
accepted, whose length is the returned count (the failing entry is not
counted), followed by the failing entry and the unvisited remainder.
Dump is exactly Walk applied to the encode callback, so it stops at the
first sink or encode error and returns the entries written before it. -/
theorem C7_walk_dump {κ α σ ε : Type} (m : SMap κ α)
    (f : σ → entry κ α → Except ε σ) (s : σ) :
    SyncMap.Dump m f s = syncMap.Walk m f s ∧
    ((syncMap.Walk m f s).2.1 = none →
      (syncMap.Walk m f s).1 = m.length) ∧
    (∀ err, (syncMap.Walk m f s).2.1 = some err →
      ∃ pre p post s2, m = pre ++ p :: post ∧
        (syncMap.Walk m f s).1 = pre.length ∧
        walkFrom f pre s 0 = (pre.length, none, s2) ∧
        f s2 p.2 = Except.error err) :=
  ⟨rfl, fun h => walk_none_all f m s h,
    fun err h => walk_err_decomp f m s err h⟩

theorem C7_witness : (syncMap.Walk m7 f7ok 0).1 = m7.length :=
  (C7_walk_dump m7 f7ok 0).2.1 (by rfl)

theorem insertByE_perm {κ : Type} (x : κ × Instant)
    (l : List (κ × Instant)) : List.Perm (insertByE x l) (x :: l) := by
  induction l with
  | nil => exact List.Perm.refl _
  | cons y ys ih =>
    unfold insertByE
    by_cases h : x.2 ≤ y.2
    · rw [if_pos h]
    · rw [if_neg h]
      exact (List.Perm.cons y ih).trans (List.Perm.swap x y ys)

theorem insertByE_sorted {κ : Type} (x : κ × Instant)
    (l : List (κ × Instant))
    (h : List.Pairwise (fun a b => a.2 ≤ b.2) l) :
    List.Pairwise (fun a b => a.2 ≤ b.2) (insertByE x l) := by
  induction l with
  | nil => simp [insertByE]
  | cons y ys ih =>
    rw [List.pairwise_cons] at h
    unfold insertByE
    by_cases hx : x.2 ≤ y.2
    · rw [if_pos hx]
      refine List.Pairwise.cons ?_ (List.Pairwise.cons h.1 h.2)
      intro b hb
      rcases List.mem_cons.mp hb with rfl | hb2
      · exact hx
      · exact le_trans hx (h.1 b hb2)
    · rw [if_neg hx]
      refine List.Pairwise.cons ?_ (ih h.2)
      intro b hb
      have hb2 : b ∈ x :: ys := (insertByE_perm x ys).mem_iff.mp hb
      rcases List.mem_cons.mp hb2 with rfl | hb3
      · exact le_of_not_le hx
      · exact h.1 b hb3

theorem sortByE_sorted {κ : Type} (l : List (κ × Instant)) :
    List.Pairwise (fun a b => a.2 ≤ b.2) (sortByE l) := by
  induction l with
  | nil => simp [sortByE]
  | cons x xs ih => exact insertByE_sorted x _ ih

theorem sortByE_perm {κ : Type} (l : List (κ × Instant)) :
    List.Perm (sortByE l) l := by
  induction l with
  | nil => exact List.Perm.refl _
  | cons x xs ih =>
    exact (insertByE_perm x (sortByE xs)).trans (List.Perm.cons x ih)

theorem foldl_mdelete_filter {κ α : Type} [DecidableEq κ]
    (l : List (κ × Instant)) (m : SMap κ α) :
    l.foldl (fun acc q => mdelete q.1 acc) m =
      m.filter (fun p => decide (p.1 ∉ l.map Prod.fst)) := by
  induction l generalizing m with
  | nil => simp
  | cons q l ih =>
    rw [List.foldl_cons, ih]
    unfold mdelete
    rw [List.filter_filter]
    apply List.filter_congr
    intro p _
    by_cases h1 : p.1 = q.1
    · simp [h1]
    · by_cases h2 : p.1 ∈ l.map Prod.fst
      · simp [h1, h2]
      · simp [h1, h2]

theorem countP_mem_nodup {κ : Type} [DecidableEq κ] (l : List κ) :
    ∀ ks : List κ, l.Nodup → ks.Nodup → ks ⊆ l →
      l.countP (fun a => decide (a ∈ ks)) = ks.length := by
  induction l with
  | nil =>
    intro ks _ _ hsub
    rw [List.subset_nil.mp hsub]
    simp
  | cons a l ih =>
    intro ks hl hks hsub
    have hal : a ∉ l := (List.nodup_cons.mp hl).1
    have hl2 : l.Nodup := (List.nodup_cons.mp hl).2
    rw [List.countP_cons]
    by_cases ha : a ∈ ks
    · have hks2 : (ks.erase a).Nodup := hks.erase a
      have hsub2 : ks.erase a ⊆ l := by
        intro x hx
        have hx2 := (List.Nodup.mem_erase_iff hks).mp hx
        rcases List.mem_cons.mp (hsub hx2.2) with rfl | h3
        · exact absurd rfl hx2.1
        · exact h3
      have hcong : l.countP (fun x => decide (x ∈ ks)) =
          l.countP (fun x => decide (x ∈ ks.erase a)) := by
        apply List.countP_congr
        intro x hxl
        have hxa : x ≠ a := fun hxa => hal (hxa ▸ hxl)
        simp [List.Nodup.mem_erase_iff hks, hxa]
      rw [hcong, ih (ks.erase a) hl2 hks2 hsub2]
      have hlen := List.length_erase_of_mem ha
      have hpos : 0 < ks.length :=
        List.length_pos.mpr (fun hnil => by simp [hnil] at ha)
      simp [ha]
      omega
    · have hsub2 : ks ⊆ l := by
        intro x hx
        rcases List.mem_cons.mp (hsub hx) with rfl | h3
        · exact absurd hx ha
        · exact h3
      rw [ih ks hl2 hks hsub2]
      simp [ha]

/-- C5 amended: evictOldest snapshots the entries, sorts them ascending
by expire_at (the zero never sentinel sorts first, not last; sort.Slice
promises no stable tie order, so pairwise distinct expirations are
assumed), deletes from the store exactly the entries holding the first
int(len * fraction) keys of that order, publishes int(len * fraction)
(= floor for the nonnegative fractions of the documented domain) as the
evict metric before deleting, and that published count equals the number
of entries actually deleted; the function itself returns no value. -/
theorem C5_evictOldest {κ α : Type} [DecidableEq κ] (cfg : Config)
    (m : SMap κ α) (hfrac : 0 ≤ cfg.EvictFraction)
    (hkeys : (m.map (fun p => p.1)).Nodup)
    (hmk : ∀ p ∈ m, p.2.K = p.1)
    (hE : (m.map (fun p => p.2.E)).Nodup) :
    (syncMap.evictOldest cfg m).2 =
      ⌊(m.length : ℚ) *
        (if cfg.EvictFraction = 0 then evictFractionDefault
          else cfg.EvictFraction)⌋ ∧
    List.Pairwise (fun a b => a.2 ≤ b.2)
      (sortByE (m.map (fun p => (p.2.K, p.2.E)))) ∧
    List.Perm (sortByE (m.map (fun p => (p.2.K, p.2.E))))
      (m.map (fun p => (p.2.K, p.2.E))) ∧
    (syncMap.evictOldest cfg m).1 =
      m.filter (fun p => decide (p.1 ∉
        ((sortByE (m.map (fun p => (p.2.K, p.2.E)))).take
          (syncMap.evictOldest cfg m).2.toNat).map Prod.fst)) ∧
    (syncMap.evictOldest cfg m).1.length =
      m.length - min (syncMap.evictOldest cfg m).2.toNat m.length := by
  have hfrac2 : 0 ≤ (if cfg.EvictFraction = 0 then evictFractionDefault
      else cfg.EvictFraction) := by
    by_cases h0 : cfg.EvictFraction = 0
    · rw [if_pos h0]
      norm_num [evictFractionDefault]
    · rw [if_neg h0]
      exact hfrac
  have hev : syncMap.evictOldest cfg m =
      (((sortByE (m.map (fun p => (p.2.K, p.2.E)))).take
          (truncF (((m.map (fun p => (p.2.K, p.2.E))).length : ℚ) *
            (if cfg.EvictFraction = 0 then evictFractionDefault
              else cfg.EvictFraction))).toNat).foldl
        (fun acc q => mdelete q.1 acc) m,
        truncF (((m.map (fun p => (p.2.K, p.2.E))).length : ℚ) *
          (if cfg.EvictFraction = 0 then evictFractionDefault
            else cfg.EvictFraction))) := rfl
  have hentlen : (m.map (fun p => (p.2.K, p.2.E))).length = m.length :=
    List.length_map m _
  have hq : 0 ≤ ((m.map (fun p => (p.2.K, p.2.E))).length : ℚ) *
      (if cfg.EvictFraction = 0 then evictFractionDefault
        else cfg.EvictFraction) :=
    mul_nonneg (Nat.cast_nonneg _) hfrac2
  refine ⟨?_, sortByE_sorted _, sortByE_perm _, ?_, ?_⟩
  · rw [hev]
    show truncF _ = _
    unfold truncF
    rw [if_pos hq, hentlen]
  · rw [hev]
    exact foldl_mdelete_filter _ m
  · rw [hev]
    show (((sortByE (m.map (fun p => (p.2.K, p.2.E)))).take
        (truncF (((m.map (fun p => (p.2.K, p.2.E))).length : ℚ) *
          (if cfg.EvictFraction = 0 then evictFractionDefault
            else cfg.EvictFraction))).toNat).foldl
      (fun acc q => mdelete q.1 acc) m).length =
      m.length - min (truncF (((m.map (fun p => (p.2.K, p.2.E))).length : ℚ) *
        (if cfg.EvictFraction = 0 then evictFractionDefault
          else cfg.EvictFraction))).toNat m.length
    rw [foldl_mdelete_filter]
    set n2 := (truncF (((m.map (fun p => (p.2.K, p.2.E))).length : ℚ) *
      (if cfg.EvictFraction = 0 then evictFractionDefault
        else cfg.EvictFraction))).toNat with hn2
    set srt := sortByE (m.map (fun p => (p.2.K, p.2.E))) with hsrtdef
    set ks := (srt.take n2).map Prod.fst with hksdef
    have hsrtperm : List.Perm srt (m.map (fun p => (p.2.K, p.2.E))) := by
      rw [hsrtdef]
      exact sortByE_perm _
    have hmapfst : (m.map (fun p => (p.2.K, p.2.E))).map Prod.fst =
        m.map (fun p => p.1) := by
      rw [List.map_map]
      apply List.map_congr_left
      intro p hp
      exact hmk p hp
    have hpermfst : List.Perm (srt.map Prod.fst) (m.map (fun p => p.1)) := by
      rw [← hmapfst]
      exact hsrtperm.map Prod.fst
    have hfstnodup : (srt.map Prod.fst).Nodup := hpermfst.nodup_iff.mpr hkeys
    have hksnodup : ks.Nodup := by
      rw [hksdef, List.map_take]
      exact List.Nodup.sublist (List.take_sublist _ _) hfstnodup
    have hkssub : ks ⊆ m.map (fun p => p.1) := by
      rw [hksdef, List.map_take]
      intro x hx
      exact hpermfst.subset (List.take_subset _ _ hx)
    have hcnt2 : m.countP (fun p => decide (p.1 ∈ ks)) = ks.length := by
      have hc := countP_mem_nodup (m.map (fun p => p.1)) ks hkeys hksnodup
        hkssub
      rw [List.countP_map] at hc
      simpa [Function.comp] using hc
    have hkslen : ks.length = min n2 m.length := by
      rw [hksdef, List.length_map, List.length_take]
      congr 1
      rw [hsrtperm.length_eq, List.length_map]
    have hsum : m.countP (fun p => decide (p.1 ∈ ks)) +
        m.countP (fun p => decide (p.1 ∉ ks)) = m.length := by
      rw [List.length_eq_countP_add_countP (fun p => decide (p.1 ∈ ks)) m]
      congr 1
      apply List.countP_congr
      intro a _
      simp
    have hflen : (m.filter (fun p => decide (p.1 ∉ ks))).length =
        m.countP (fun p => decide (p.1 ∉ ks)) :=
      (List.countP_eq_length_filter _ _).symm
    rw [hflen]
    omega

/-- C5 counterexample: with two entries, one holding the zero (never)
expiration sentinel and one expiring at instant 100, and fraction one
half, one entry is evicted: the claimed order puts the unlimited entry
last, so the entry expiring at 100 would be deleted; the code sorts
ascending by expiration, which puts the zero sentinel first, so it is the
never-expiring entry that is deleted and the dated entry that survives. -/
theorem C5_counterexample :
    (syncMap.evictOldest cfgC5 m5).1 = [(2, { K := 2, V := 20, E := 100 })] ∧
    mload 1 (syncMap.evictOldest cfgC5 m5).1 = none ∧
    (1, { K := (1 : Nat), V := (10 : Nat), E := (0 : Int) }) ∈ m5 ∧
    (syncMap.evictOldest cfgC5 m5).2 = 1 := by
  have hev : syncMap.evictOldest cfgC5 m5 =
      (((sortByE (m5.map (fun p => (p.2.K, p.2.E)))).take
          (truncF (((m5.map (fun p => (p.2.K, p.2.E))).length : ℚ) *
            (if cfgC5.EvictFraction = 0 then evictFractionDefault
              else cfgC5.EvictFraction))).toNat).foldl
        (fun acc q => mdelete q.1 acc) m5,
        truncF (((m5.map (fun p => (p.2.K, p.2.E))).length : ℚ) *
          (if cfgC5.EvictFraction = 0 then evictFractionDefault
            else cfgC5.EvictFraction))) := rfl
  have hfr : (if cfgC5.EvictFraction = 0 then evictFractionDefault
      else cfgC5.EvictFraction) = 1/2 := by
    norm_num [cfgC5, cfgZero]
  have hlen : ((m5.map (fun p => (p.2.K, p.2.E))).length : ℚ) = 2 := by
    norm_num [m5]
  have htr : truncF (((m5.map (fun p => (p.2.K, p.2.E))).length : ℚ) *
      (if cfgC5.EvictFraction = 0 then evictFractionDefault
        else cfgC5.EvictFraction)) = 1 := by
    rw [hfr, hlen]
    norm_num [truncF]
  rw [hev, htr]
  refine ⟨by decide, by decide, by decide, rfl⟩

theorem C5_witness :
    (syncMap.evictOldest cfgC5 m5).1.length =
      m5.length - min (syncMap.evictOldest cfgC5 m5).2.toNat m5.length :=
  (C5_evictOldest cfgC5 m5 (by norm_num [cfgC5, cfgZero]) (by decide)
    (by decide) (by decide)).2.2.2.2
